import Mathlib

/- Verification of the Genome-Automaton core engines: the linear-chain DFA
   exact matcher (automata_engine.py), the PDA complement-palindrome finder
   (pda_engine.py), and the construction factory (automata_factory.py).
   Sequences and patterns are modelled as lists of characters; the mutable
   engine configuration is passed explicitly. -/

namespace GenomeAutomaton

/-- The fixed DNA alphabet `['A', 'T', 'G', 'C']` shared by the engines. -/
def dnaAlphabet : List Char := ['A', 'T', 'G', 'C']

/-- Uppercasing of a character sequence, as done by `str.upper()`. -/
def upper (xs : List Char) : List Char := xs.map Char.toUpper

/-- The base-complement map of `pda_engine._comp`:
    dictionary lookup with default `'?'`. -/
def comp (c : Char) : Char :=
  if c = 'A' then 'T'
  else if c = 'T' then 'A'
  else if c = 'G' then 'C'
  else if c = 'C' then 'G'
  else '?'

/-- The pattern stored by `DFA.__init__`: the input pattern uppercased. -/
def mkDFA (pat : List Char) : List Char := upper pat

/-- The transition table built by `DFA._build_linear_chain`, read through
    `dict.get(..., 0)`: state `i` reading the pattern's `i`-th character
    advances to `i + 1` (or wraps to `0` from the last state); any other
    symbol goes to `1` when it equals the pattern's first character and the
    state is not `0`, else to `0`.  States outside the table default to `0`,
    and the empty pattern self-loops on `0`. -/
def dfaTrans (P : List Char) (i : Nat) (sym : Char) : Nat :=
  if hi : i < P.length then
    if sym = P.get ⟨i, hi⟩ then
      if i = P.length - 1 then 0 else i + 1
    else if sym = P.headD 'A' ∧ i ≠ 0 then 1 else 0
  else 0

/-- The `is_match` flag computed inside `DFA.step`: the state is the last
    one, the transition lands on `0`, and the symbol is the pattern's last
    character (Python's short-circuit on the empty pattern is captured by
    the first conjunct being false there). -/
def dfaAccept (P : List Char) (st next : Nat) (sym : Char) : Bool :=
  decide ((st : Int) = (P.length : Int) - 1) && decide (next = 0) &&
    decide (P.getLast? = some sym)

namespace DFA

/-- One call of `DFA.step`: the symbol is uppercased; inside the alphabet it
    drives the transition table and the accept test, outside the alphabet the
    state is unchanged and the accept flag is false.  Returns the new
    `current_state` and the accept flag. -/
def step (P : List Char) (st : Nat) (symbol : Char) : Nat × Bool :=
  if symbol.toUpper ∈ dnaAlphabet then
    (dfaTrans P st symbol.toUpper,
      dfaAccept P st (dfaTrans P st symbol.toUpper) symbol.toUpper)
  else (st, false)

/-- The scanning loop of `DFA.find_all_matches`: step through the sequence,
    recording `(i - len(pattern) + 1, i)` at every accepting step. -/
def findAllMatchesAux (P : List Char) : Nat → Nat → List Char → List (Int × Int)
  | _, _, [] => []
  | st, i, c :: rest =>
    if (step P st c).2 then
      ((i : Int) - P.length + 1, (i : Int)) ::
        findAllMatchesAux P (step P st c).1 (i + 1) rest
    else findAllMatchesAux P (step P st c).1 (i + 1) rest

/-- `DFA.find_all_matches`: reset, scan from state `0`, return the matches. -/
def findAllMatches (P : List Char) (s : List Char) : List (Int × Int) :=
  findAllMatchesAux P 0 0 s

/-- `DFA.find_all_matches` observed together with the mutable configuration:
    called with `current_state = st0`, it resets to `0` before scanning and
    resets again before returning, so the pair holds the returned matches and
    the final `current_state`. -/
def findAllMatchesFrom (P : List Char) (_st0 : Nat) (s : List Char) :
    List (Int × Int) × Nat :=
  (findAllMatchesAux P 0 0 s, 0)

/-- The `current_state` after stepping through `xs` starting from `st`. -/
def run (P : List Char) (st : Nat) (xs : List Char) : Nat :=
  xs.foldl (fun s c => (step P s c).1) st

end DFA

/-- Indexing used by the palindrome expansion: Python evaluates `s[l]` only
    under the guard `l >= 0`, so out-of-guard positions may return anything;
    we return `'?'` there. -/
def cgetI (s : List Char) (j : Int) : Char :=
  if 0 ≤ j then s.getD j.toNat '?' else '?'

/-- The `min_len` stored by `PDA.__init__`: `max(2, int(min_len))`. -/
def mkMinLen (m : Int) : Nat := (max 2 m).toNat

/-- The `expand` loop nested in `PDA.find_all_matches`: widen `[l, r]` while
    the left character complements the right one, then keep the last valid
    window `[l + 1, r - 1]` when its length reaches `min_len`.  The loop is
    written with explicit fuel; `s.length + 1` fuel is always sufficient
    because `r` strictly increases while bounded by `s.length`. -/
def expand (s : List Char) (m : Nat) : Nat → Int → Nat → Option (Nat × Nat)
  | 0, _, _ => none
  | fuel + 1, l, r =>
    if 0 ≤ l ∧ r < s.length ∧ comp (cgetI s l) = cgetI s r then
      expand s m fuel (l - 1) (r + 1)
    else if (m : Int) ≤ (r : Int) - l - 1 then some ((l + 1).toNat, r - 1)
    else none

/-- Lexicographic order on `(start, end)` pairs, the order used by Python's
    `sorted` on 2-tuples. -/
def pairLe (a b : Nat × Nat) : Prop :=
  a.1 < b.1 ∨ (a.1 = b.1 ∧ a.2 ≤ b.2)

instance : DecidableRel pairLe := fun a b =>
  inferInstanceAs (Decidable (a.1 < b.1 ∨ (a.1 = b.1 ∧ a.2 ≤ b.2)))

instance : IsTotal (Nat × Nat) pairLe := by
  constructor
  intro a b
  unfold pairLe
  omega

instance : IsTrans (Nat × Nat) pairLe := by
  constructor
  intro a b c
  unfold pairLe
  omega

namespace PDA

/-- `PDA.find_all_matches`: uppercase the sequence, expand around every
    adjacent center `(i, i + 1)`, collect the qualifying windows, and return
    them deduplicated and sorted by `(start, end)` — the effect of Python's
    `sorted(set(matches))`. -/
def findAllMatches (m : Nat) (sequence : List Char) : List (Nat × Nat) :=
  List.insertionSort pairLe
    (((List.range ((upper sequence).length - 1)).filterMap
        (fun (i : Nat) => expand (upper sequence) m ((upper sequence).length + 1) (i : Int) (i + 1))).dedup)

end PDA

/-- The mutable configuration of the PDA engine: its stack, the cursor
    `pos`, and the `mode` label. -/
structure PDACfg where
  stack : List Char
  pos : Nat
  mode : String
deriving DecidableEq

/-- The configuration established by `PDA.reset` (also the constructor's
    initial configuration): empty stack, position `0`, mode `"push"`. -/
def initPDACfg : PDACfg := ⟨[], 0, "push"⟩

namespace PDA

/-- `PDA.step`: push the uppercased symbol and advance the cursor; past
    stack depth 8 the oldest element is discarded and the mode flips to
    `"pop"`.  The accept component of the return value is always false. -/
def stepCfg (cfg : PDACfg) (symbol : Char) : PDACfg × Bool :=
  if (cfg.stack ++ [symbol.toUpper]).length > 8 then
    (⟨(cfg.stack ++ [symbol.toUpper]).drop 1, cfg.pos + 1, "pop"⟩, false)
  else
    (⟨cfg.stack ++ [symbol.toUpper], cfg.pos + 1, "push"⟩, false)

/-- `PDA.find_all_matches` observed together with the mutable configuration:
    the Python body only reads `self.min_len` and works on locals, so the
    configuration it was entered with is returned untouched. -/
def findAllMatchesCfg (m : Nat) (cfg : PDACfg) (sequence : List Char) :
    List (Nat × Nat) × PDACfg :=
  (findAllMatches m sequence, cfg)

end PDA

namespace AutomataType

/-- Modelled from the spec: `automata_base.AutomataType` is not under src/;
    its variant tags are represented by the variant names used throughout
    the spec and the factory labels. -/
def DFA : String := "DFA"

/-- Modelled from the spec: the alternation-engine tag. -/
def NFA : String := "NFA"

/-- Modelled from the spec: the gap-tolerant-engine tag. -/
def ENFA : String := "ENFA"

/-- Modelled from the spec: the palindrome-engine tag. -/
def PDA : String := "PDA"

end AutomataType

/-- The four variant tags accepted by the factory's dispatch map. -/
def supportedTypes : List String :=
  [AutomataType.DFA, AutomataType.NFA, AutomataType.ENFA, AutomataType.PDA]

/-- The default pattern label `"PALINDROME"` substituted by the factory when
    the palindrome engine is requested with an empty pattern. -/
def defaultPalindromeLabel : List Char :=
  ['P', 'A', 'L', 'I', 'N', 'D', 'R', 'O', 'M', 'E']

/-- A constructed engine, one constructor per supported variant.  The DFA
    and PDA constructors carry the construction data of the classes under
    src/.  Modelled from the spec: the NFA and epsilon-NFA classes are not
    under src/, so those constructors only record the requested pattern. -/
inductive Engine where
  | dfa (pattern : List Char)
  | nfa (pattern : List Char)
  | enfa (pattern : List Char)
  | pda (minLen : Nat) (pattern : List Char)

/-- `automata_factory.create_automaton`: dispatch on the requested tag,
    raising `ValueError(f"Unsupported automata type: {automata_type}")` for
    a tag outside the map; the error is modelled with `Except.error`. -/
def createAutomaton (t : String) (pattern : List Char) : Except String Engine :=
  if t = AutomataType.DFA then Except.ok (Engine.dfa (mkDFA pattern))
  else if t = AutomataType.NFA then Except.ok (Engine.nfa pattern)
  else if t = AutomataType.ENFA then Except.ok (Engine.enfa pattern)
  else if t = AutomataType.PDA then
    Except.ok (Engine.pda (mkMinLen 4)
      (if pattern = [] then defaultPalindromeLabel else pattern))
  else Except.error ("Unsupported automata type: " ++ t)

lemma upper_append (xs ys : List Char) :
    upper (xs ++ ys) = upper xs ++ upper ys := by
  simp [upper]

lemma upper_length (xs : List Char) : (upper xs).length = xs.length := by
  simp [upper]

lemma dfaTrans_lt (P : List Char) (hP : P ≠ []) (i : Nat) (sym : Char) :
    dfaTrans P i sym < P.length := by
  have hn : 0 < P.length := List.length_pos.mpr hP
  unfold dfaTrans
  split
  next hi =>
    split
    · split <;> omega
    · split
      next hcond =>
        have hne := hcond.2
        omega
      · exact hn
  next => exact hn

lemma dfa_step_fst_lt (P : List Char) (hP : P ≠ []) (st : Nat) (c : Char)
    (h : st < P.length) : (DFA.step P st c).1 < P.length := by
  unfold DFA.step
  split
  · exact dfaTrans_lt P hP st c.toUpper
  · exact h

lemma dfa_step_snd (P : List Char) (st : Nat) (c : Char)
    (hc : c.toUpper ∈ dnaAlphabet) :
    (DFA.step P st c).2 =
      dfaAccept P st (dfaTrans P st c.toUpper) c.toUpper := by
  unfold DFA.step
  rw [if_pos hc]

lemma dfa_step_fst (P : List Char) (st : Nat) (c : Char)
    (hc : c.toUpper ∈ dnaAlphabet) :
    (DFA.step P st c).1 = dfaTrans P st c.toUpper := by
  unfold DFA.step
  rw [if_pos hc]

lemma dfa_accept_true (P : List Char) (st next : Nat) (sym : Char)
    (h : dfaAccept P st next sym = true) :
    (st : Int) = (P.length : Int) - 1 ∧ P.getLast? = some sym := by
  unfold dfaAccept at h
  simp only [Bool.and_eq_true, decide_eq_true_eq] at h
  exact ⟨h.1.1, h.2⟩

lemma take_one_headD (P : List Char) (hP : P ≠ []) :
    P.take 1 = [P.headD 'A'] := by
  cases P with
  | nil => exact absurd rfl hP
  | cons a t => rfl

/-- The chain invariant: after any run that keeps the state in range, the
    state counts exactly how many final characters of the consumed input
    spell the matching prefix of the pattern. One step preserves it when the
    read symbol uppercases into the alphabet. -/
lemma dfa_step_inv (P : List Char) (hP : P ≠ [])
    (consumed : List Char) (st : Nat) (c : Char)
    (hc : c.toUpper ∈ dnaAlphabet)
    (hlt : st < P.length) (hle : st ≤ consumed.length)
    (htake : P.take st = (upper consumed).drop (consumed.length - st)) :
    (DFA.step P st c).1 ≤ consumed.length + 1 ∧
    P.take (DFA.step P st c).1 =
      (upper (consumed ++ [c])).drop
        (consumed.length + 1 - (DFA.step P st c).1) := by
  have hn : 0 < P.length := List.length_pos.mpr hP
  have hup : upper (consumed ++ [c]) = upper consumed ++ [c.toUpper] := by
    simp [upper]
  have hulen : (upper consumed).length = consumed.length := upper_length consumed
  have hdropz : ∀ k : Nat, k ≤ consumed.length →
      (upper consumed ++ [c.toUpper]).drop k =
        (upper consumed).drop k ++ [c.toUpper] := by
    intro k hk
    rw [List.drop_append_eq_append_drop]
    have : k - (upper consumed).length = 0 := by omega
    rw [this]
    rfl
  rw [dfa_step_fst P st c hc]
  unfold dfaTrans
  rw [dif_pos hlt]
  by_cases hA : c.toUpper = P.get ⟨st, hlt⟩
  · rw [if_pos hA]
    by_cases hA1 : st = P.length - 1
    · rw [if_pos hA1]
      refine ⟨by omega, ?_⟩
      rw [List.take_zero, Nat.sub_zero, hup]
      have : (upper consumed ++ [c.toUpper]).length ≤ consumed.length + 1 := by
        simp [hulen]
      rw [List.drop_eq_nil_of_le this]
    · rw [if_neg hA1]
      refine ⟨by omega, ?_⟩
      rw [hup, hdropz (consumed.length + 1 - (st + 1)) (by omega)]
      have hidx : consumed.length + 1 - (st + 1) = consumed.length - st := by omega
      rw [hidx, ← htake, hA]
      have h2 := List.take_concat_get P st hlt
      rw [List.concat_eq_append] at h2
      exact h2.symm
  · rw [if_neg hA]
    by_cases hB : c.toUpper = P.headD 'A' ∧ st ≠ 0
    · rw [if_pos hB]
      refine ⟨by omega, ?_⟩
      rw [hup, hdropz (consumed.length + 1 - 1) (by omega)]
      have hidx : consumed.length + 1 - 1 = consumed.length := by omega
      rw [hidx, ← hulen, List.drop_length, take_one_headD P hP, hB.1]
      rfl
    · rw [if_neg hB]
      refine ⟨by omega, ?_⟩
      rw [List.take_zero, Nat.sub_zero, hup]
      have : (upper consumed ++ [c.toUpper]).length ≤ consumed.length + 1 := by
        simp [hulen]
      rw [List.drop_eq_nil_of_le this]

/-- Soundness of the scanning loop: under the chain invariant and an
    in-alphabet tail, every recorded match window has length exactly the
    pattern's, lies inside the scanned input, and spells the pattern. -/
lemma findAllMatchesAux_sound (P : List Char) (hP : P ≠ []) :
    ∀ (rest consumed : List Char) (st : Nat),
      (∀ c ∈ rest, c.toUpper ∈ dnaAlphabet) →
      st < P.length → st ≤ consumed.length →
      P.take st = (upper consumed).drop (consumed.length - st) →
      ∀ m ∈ DFA.findAllMatchesAux P st consumed.length rest,
        ∃ a : Nat, m = ((a : Int), (a : Int) + P.length - 1) ∧
          a + P.length ≤ consumed.length + rest.length ∧
          ((upper (consumed ++ rest)).drop a).take P.length = P := by
  intro rest
  induction rest with
  | nil =>
    intro consumed st _ _ _ _ m hm
    simp [DFA.findAllMatchesAux] at hm
  | cons c rest ih =>
    intro consumed st hal hlt hle htake m hm
    have hn : 0 < P.length := List.length_pos.mpr hP
    have hc : c.toUpper ∈ dnaAlphabet := hal c (List.mem_cons_self c rest)
    have hal' : ∀ x ∈ rest, x.toUpper ∈ dnaAlphabet :=
      fun x hx => hal x (List.mem_cons_of_mem c hx)
    have hinv := dfa_step_inv P hP consumed st c hc hlt hle htake
    have hlt' := dfa_step_fst_lt P hP st c hlt
    have hrec :
        ∀ m ∈ DFA.findAllMatchesAux P (DFA.step P st c).1
            (consumed.length + 1) rest,
          ∃ a : Nat, m = ((a : Int), (a : Int) + P.length - 1) ∧
            a + P.length ≤ consumed.length + (c :: rest).length ∧
            ((upper (consumed ++ c :: rest)).drop a).take P.length = P := by
      intro m hm
      have hlen1 : (consumed ++ [c]).length = consumed.length + 1 := by simp
      have := ih (consumed ++ [c]) (DFA.step P st c).1 hal' hlt'
        (by rw [hlen1]; exact hinv.1) (by rw [hlen1]; exact hinv.2)
        m (by rw [hlen1]; exact hm)
      obtain ⟨a, hm1, hm2, hm3⟩ := this
      refine ⟨a, hm1, by simp at hm2 ⊢; omega, ?_⟩
      have : consumed ++ [c] ++ rest = consumed ++ c :: rest := by simp
      rw [this] at hm3
      exact hm3
    unfold DFA.findAllMatchesAux at hm
    by_cases hacc : (DFA.step P st c).2 = true
    · rw [if_pos hacc] at hm
      rcases List.mem_cons.mp hm with hm0 | hm1
      · -- the newly recorded window
        rw [dfa_step_snd P st c hc] at hacc
        obtain ⟨hst, hlast⟩ := dfa_accept_true P st _ _ hacc
        have hst' : st = P.length - 1 := by omega
        refine ⟨consumed.length + 1 - P.length, ?_, by simp; omega, ?_⟩
        · rw [hm0, Prod.mk.injEq]
          exact ⟨by omega, by omega⟩
        · have ha : consumed.length + 1 - P.length = consumed.length - st := by
            omega
          have hup2 : upper (consumed ++ c :: rest) =
              upper consumed ++ c.toUpper :: upper rest := by
            simp [upper]
          rw [ha, hup2, List.drop_append_eq_append_drop]
          have hz : consumed.length - st - (upper consumed).length = 0 := by
            rw [upper_length]; omega
          rw [hz, List.drop_zero, List.take_append_eq_append_take]
          have hXlen : ((upper consumed).drop (consumed.length - st)).length =
              st := by
            rw [List.length_drop, upper_length]; omega
          have hX : ((upper consumed).drop (consumed.length - st)).take
              P.length = (upper consumed).drop (consumed.length - st) :=
            List.take_of_length_le (by omega)
          rw [hX, hXlen, ← htake]
          have hone : P.length - st = 1 := by omega
          rw [hone]
          have htk1 : (c.toUpper :: upper rest).take 1 = [c.toUpper] := rfl
          rw [htk1]
          have : P.take st = P.dropLast := by
            rw [List.dropLast_eq_take, hst']
          rw [this]
          exact List.dropLast_append_getLast? c.toUpper hlast
      · exact hrec m hm1
    · rw [if_neg hacc] at hm
      exact hrec m hm

lemma dfa_step_fst_le (P : List Char) (st : Nat) (c : Char) :
    (DFA.step P st c).1 ≤ st + 1 := by
  unfold DFA.step
  split
  · unfold dfaTrans
    split
    · split
      · split <;> omega
      · split <;> omega
    · omega
  · omega

/-- Every window the scanning loop records has length exactly the pattern's,
    a nonnegative start, and an end inside the scanned input — with no
    assumption on the scanned characters. -/
lemma findAllMatchesAux_len (P : List Char) :
    ∀ (rest : List Char) (st i : Nat), st ≤ i →
      ∀ m ∈ DFA.findAllMatchesAux P st i rest,
        m.2 - m.1 + 1 = (P.length : Int) ∧ 0 ≤ m.1 ∧
        m.2 < (i : Int) + rest.length := by
  intro rest
  induction rest with
  | nil =>
    intro st i _ m hm
    simp [DFA.findAllMatchesAux] at hm
  | cons c rest ih =>
    intro st i hle m hm
    unfold DFA.findAllMatchesAux at hm
    have hle' : (DFA.step P st c).1 ≤ i + 1 :=
      le_trans (dfa_step_fst_le P st c) (by omega)
    by_cases hacc : (DFA.step P st c).2 = true
    · rw [if_pos hacc] at hm
      rcases List.mem_cons.mp hm with hm0 | hm1
      · have hcsub : c.toUpper ∈ dnaAlphabet := by
          by_contra hnc
          unfold DFA.step at hacc
          rw [if_neg hnc] at hacc
          exact absurd hacc (by simp)
        rw [dfa_step_snd P st c hcsub] at hacc
        obtain ⟨hst, -⟩ := dfa_accept_true P st _ _ hacc
        rw [hm0]
        refine ⟨by omega, by omega, by simp⟩
      · obtain ⟨ha, hb, hcc⟩ := ih (DFA.step P st c).1 (i + 1) hle' m hm1
        refine ⟨ha, hb, by simp at hcc ⊢; omega⟩
    · rw [if_neg hacc] at hm
      obtain ⟨ha, hb, hcc⟩ := ih (DFA.step P st c).1 (i + 1) hle' m hm
      refine ⟨ha, hb, by simp at hcc ⊢; omega⟩

/-- The chain invariant transported along a whole run. -/
lemma dfa_run_inv (P : List Char) (hP : P ≠ []) :
    ∀ (xs : List Char) (st : Nat) (consumed : List Char),
      (∀ c ∈ xs, c.toUpper ∈ dnaAlphabet) →
      st < P.length → st ≤ consumed.length →
      P.take st = (upper consumed).drop (consumed.length - st) →
      DFA.run P st xs < P.length ∧
      DFA.run P st xs ≤ (consumed ++ xs).length ∧
      P.take (DFA.run P st xs) =
        (upper (consumed ++ xs)).drop
          ((consumed ++ xs).length - DFA.run P st xs) := by
  intro xs
  induction xs with
  | nil =>
    intro st consumed _ h1 h2 h3
    simp only [DFA.run, List.foldl_nil, List.append_nil]
    exact ⟨h1, h2, h3⟩
  | cons c xs ih =>
    intro st consumed hal h1 h2 h3
    have hc := hal c (List.mem_cons_self c xs)
    have hal' : ∀ x ∈ xs, x.toUpper ∈ dnaAlphabet :=
      fun x hx => hal x (List.mem_cons_of_mem c hx)
    have hinv := dfa_step_inv P hP consumed st c hc h1 h2 h3
    have hlt' := dfa_step_fst_lt P hP st c h1
    have hrun : DFA.run P st (c :: xs) = DFA.run P (DFA.step P st c).1 xs := by
      simp [DFA.run]
    rw [hrun]
    have := ih (DFA.step P st c).1 (consumed ++ [c]) hal' hlt'
      (by simpa using hinv.1) (by simpa using hinv.2)
    simpa [List.append_assoc] using this

lemma dfaTrans_nil (i : Nat) (sym : Char) : dfaTrans [] i sym = 0 := by
  unfold dfaTrans
  simp

lemma dfaAccept_nil (st next : Nat) (sym : Char) :
    dfaAccept [] st next sym = false := by
  unfold dfaAccept
  have h : ¬((st : Int) = (([] : List Char).length : Int) - 1) := by
    simp
  simp [h]

lemma dfa_step_nil_snd (st : Nat) (c : Char) :
    (DFA.step [] st c).2 = false := by
  unfold DFA.step
  split
  · simp [dfaAccept_nil]
  · rfl

lemma findAllMatchesAux_nil_pattern (s : List Char) :
    ∀ (st i : Nat), DFA.findAllMatchesAux [] st i s = [] := by
  induction s with
  | nil => intro st i; rfl
  | cons c rest ih =>
    intro st i
    unfold DFA.findAllMatchesAux
    simp [dfa_step_nil_snd, ih]

/-- C9: the DFA built from the empty pattern never matches: `find_all_matches`
    returns the empty list on every sequence, every `step` reports a false
    accept flag, and every alphabet symbol self-loops on state `0`. -/
theorem dfa_empty_pattern :
    (∀ s : List Char, DFA.findAllMatches (mkDFA []) s = []) ∧
    (∀ (st : Nat) (c : Char), (DFA.step (mkDFA []) st c).2 = false) ∧
    (∀ sym ∈ dnaAlphabet, dfaTrans (mkDFA []) 0 sym = 0) :=
  ⟨fun s => findAllMatchesAux_nil_pattern s 0 0,
    fun st c => dfa_step_nil_snd st c,
    fun sym _ => dfaTrans_nil 0 sym⟩

/-- Witness for C9 at the concrete symbol `'A'` and sequence `"ATGC"`. -/
theorem dfa_empty_pattern_witness :
    'A' ∈ dnaAlphabet ∧ dfaTrans (mkDFA []) 0 'A' = 0 ∧
    DFA.findAllMatches (mkDFA []) ['A', 'T', 'G', 'C'] = [] :=
  ⟨by decide, dfa_empty_pattern.2.2 'A' (by decide),
    dfa_empty_pattern.1 ['A', 'T', 'G', 'C']⟩

/-- C10: on either engine, a second `find_all_matches` call on the same
    sequence, started from the configuration the first call left behind,
    returns the same list of match windows as the first call. -/
theorem find_all_matches_idempotent :
    (∀ (P : List Char) (st0 : Nat) (s : List Char),
        (DFA.findAllMatchesFrom P st0 s).1 =
          (DFA.findAllMatchesFrom P (DFA.findAllMatchesFrom P st0 s).2 s).1) ∧
    (∀ (m : Nat) (cfg : PDACfg) (s : List Char),
        (PDA.findAllMatchesCfg m cfg s).1 =
          (PDA.findAllMatchesCfg m (PDA.findAllMatchesCfg m cfg s).2 s).1) :=
  ⟨fun _ _ _ => rfl, fun _ _ _ => rfl⟩

/-- C6 (amended): the DFA's `find_all_matches` resets before scanning and
    again before returning, so its configuration ends equal to the initial
    state `0` from any starting state; the PDA's `find_all_matches` performs
    no reset at all and returns with its configuration exactly as it was
    when called. -/
theorem find_all_matches_config :
    (∀ (P : List Char) (st0 : Nat) (s : List Char),
        (DFA.findAllMatchesFrom P st0 s).2 = 0) ∧
    (∀ (m : Nat) (cfg : PDACfg) (s : List Char),
        (PDA.findAllMatchesCfg m cfg s).2 = cfg) :=
  ⟨fun _ _ _ => rfl, fun _ _ _ => rfl⟩

/-- Counterexample to C6 as stated: calling the PDA's `find_all_matches`
    from the reachable configuration produced by one `step` does not leave
    the engine in its initial configuration. -/
theorem pda_config_counterexample :
    (PDA.findAllMatchesCfg (mkMinLen 4) (PDA.stepCfg initPDACfg 'A').1 []).2 ≠
      initPDACfg := by
  decide

/-- C7: a symbol whose uppercase form is outside `{A, T, G, C}` crashes
    neither engine: the DFA's `step` leaves the state unchanged and reports
    a false accept flag, and the PDA's `step` reports a false accept flag. -/
theorem step_out_of_alphabet (c : Char) (h : c.toUpper ∉ dnaAlphabet) :
    (∀ (P : List Char) (st : Nat), DFA.step P st c = (st, false)) ∧
    (∀ cfg : PDACfg, (PDA.stepCfg cfg c).2 = false) := by
  constructor
  · intro P st
    unfold DFA.step
    rw [if_neg h]
  · intro cfg
    unfold PDA.stepCfg
    split <;> rfl

/-- Witness for C7 at the concrete symbol `'N'`. -/
theorem step_out_of_alphabet_witness :
    'N'.toUpper ∉ dnaAlphabet ∧
    DFA.step (mkDFA ['A', 'T', 'G']) 2 'N' = (2, false) ∧
    (PDA.stepCfg initPDACfg 'N').2 = false :=
  ⟨by decide, (step_out_of_alphabet 'N' (by decide)).1 (mkDFA ['A', 'T', 'G']) 2,
    (step_out_of_alphabet 'N' (by decide)).2 initPDACfg⟩

/-- C8: every variant tag outside the supported set makes `create_automaton`
    fail with the `ValueError` naming the requested tag; no engine value is
    returned. -/
theorem factory_unsupported (t : String) (p : List Char)
    (h : t ∉ supportedTypes) :
    createAutomaton t p = Except.error ("Unsupported automata type: " ++ t) := by
  simp only [supportedTypes, List.mem_cons, List.mem_singleton, not_or] at h
  obtain ⟨h1, h2, h3, h4⟩ := h
  unfold createAutomaton
  rw [if_neg h1, if_neg h2, if_neg h3]
  simpa using h4

/-- Witness for C8 at the concrete tag `"XYZ"`. -/
theorem factory_unsupported_witness :
    "XYZ" ∉ supportedTypes ∧
    createAutomaton "XYZ" [] =
      Except.error ("Unsupported automata type: " ++ "XYZ") :=
  ⟨by decide, factory_unsupported "XYZ" [] (by decide)⟩

/-- C2 evaluated at the spec's own scenario: with pattern `"AAA"` the scan of
    `"AAAA"` returns only the window `(0, 2)`; the overlapping occurrence at
    `(1, 3)` promised by the spec is missed because the accepting transition
    returns to state `0` instead of the self-overlap state. -/
theorem dfa_overlap_missed :
    DFA.findAllMatches (mkDFA ['A', 'A', 'A']) ['A', 'A', 'A', 'A'] =
      [((0 : Int), (2 : Int))] := by
  decide

/-- Counterexample to C1 as stated: with pattern `"AT"` and sequence `"ANT"`
    (which contains the out-of-alphabet symbol `'N'`), the window `(1, 2)` is
    reported although the sequence restricted to it spells `"NT"`, not the
    pattern. -/
theorem dfa_window_counterexample :
    DFA.findAllMatches (mkDFA ['A', 'T']) ['A', 'N', 'T'] =
      [((1 : Int), (2 : Int))] ∧
    ((upper ['A', 'N', 'T']).drop 1).take (mkDFA ['A', 'T']).length ≠
      mkDFA ['A', 'T'] := by
  decide

/-- Counterexample to C3 as stated: on the sequence `"AN?T"` the palindrome
    finder reports the window `(0, 3)`, yet at offset `2` the complement
    condition fails, because `comp` is not an involution outside the
    alphabet. -/
theorem pda_window_offset_counterexample :
    (0, 3) ∈ PDA.findAllMatches (mkMinLen 4) ['A', 'N', '?', 'T'] ∧
    comp ((upper ['A', 'N', '?', 'T']).getD (0 + 2) '?') ≠
      (upper ['A', 'N', '?', 'T']).getD (3 - 2) '?' := by
  decide

/-- Counterexample to C4 as stated: in `"GGATCC"` the window `(1, 4)` has
    length `4 ≥ 4` and satisfies the complement condition at every offset,
    yet it is not reported — only the maximal expansion `(0, 5)` is. -/
theorem pda_subwindow_counterexample :
    comp ((upper ['G', 'G', 'A', 'T', 'C', 'C']).getD (1 + 0) '?') =
      (upper ['G', 'G', 'A', 'T', 'C', 'C']).getD (4 - 0) '?' ∧
    comp ((upper ['G', 'G', 'A', 'T', 'C', 'C']).getD (1 + 1) '?') =
      (upper ['G', 'G', 'A', 'T', 'C', 'C']).getD (4 - 1) '?' ∧
    comp ((upper ['G', 'G', 'A', 'T', 'C', 'C']).getD (1 + 2) '?') =
      (upper ['G', 'G', 'A', 'T', 'C', 'C']).getD (4 - 2) '?' ∧
    comp ((upper ['G', 'G', 'A', 'T', 'C', 'C']).getD (1 + 3) '?') =
      (upper ['G', 'G', 'A', 'T', 'C', 'C']).getD (4 - 3) '?' ∧
    mkMinLen 4 ≤ 4 - 1 + 1 ∧
    (1, 4) ∉ PDA.findAllMatches (mkMinLen 4) ['G', 'G', 'A', 'T', 'C', 'C'] := by
  decide

lemma mkMinLen_two (m : Int) : 2 ≤ mkMinLen m := by
  unfold mkMinLen
  have := le_max_left 2 m
  omega

lemma comp_mem_invol (c : Char) (h : c ∈ dnaAlphabet) : comp (comp c) = c := by
  simp [dnaAlphabet] at h
  rcases h with rfl | rfl | rfl | rfl <;> rfl

lemma getD_mem (s : List Char) (x : Nat) (d : Char) (h : x < s.length) :
    s.getD x d ∈ s := by
  rw [List.getD_eq_getElem?_getD, List.getElem?_eq_getElem h, Option.getD_some]
  exact List.getElem_mem h

/-- What a successful expansion guarantees: the produced window has the same
    center as the starting pair, contains it, stops inside the sequence,
    meets the length threshold, and every centered pair with a smaller left
    index satisfies the complement check. -/
lemma expand_spec (s : List Char) (m : Nat) :
    ∀ (fuel : Nat) (l : Int) (r : Nat) (L R : Nat),
      s.length + 1 ≤ fuel + r →
      -1 ≤ l → 1 ≤ r → r ≤ s.length → l < (r : Int) →
      (∀ x y : Nat, (x : Int) + y = l + r → l < (x : Int) → x < y →
        comp (s.getD x '?') = s.getD y '?') →
      expand s m fuel l r = some (L, R) →
      (L : Int) + R = l + r ∧ (L : Int) ≤ l + 1 ∧ R < s.length ∧
      (m : Int) ≤ (R : Int) - L + 1 ∧
      (∀ x y : Nat, x + y = L + R → L ≤ x → x < y →
        comp (s.getD x '?') = s.getD y '?') := by
  intro fuel
  induction fuel with
  | zero =>
    intro l r L R hfuel _ _ hrn _ _ hexp
    exfalso
    omega
  | succ fuel ih =>
    intro l r L R hfuel hl hr1 hrn hlr hacc hexp
    simp only [expand] at hexp
    by_cases hg : 0 ≤ l ∧ r < s.length ∧ comp (cgetI s l) = cgetI s r
    · rw [if_pos hg] at hexp
      obtain ⟨hg1, hg2, hg3⟩ := hg
      have hacc' : ∀ x y : Nat, (x : Int) + y = (l - 1) + (r + 1) →
          l - 1 < (x : Int) → x < y →
          comp (s.getD x '?') = s.getD y '?' := by
        intro x y hsum hxl hxy
        by_cases hxl2 : l < (x : Int)
        · exact hacc x y (by omega) hxl2 hxy
        · have hgl : cgetI s l = s.getD x '?' := by
            unfold cgetI
            rw [if_pos hg1]
            congr 1
            omega
          have hgr : cgetI s (r : Nat) = s.getD y '?' := by
            unfold cgetI
            rw [if_pos (by omega : (0 : Int) ≤ ((r : Nat) : Int))]
            congr 1
            omega
          rw [← hgl, ← hgr]
          exact hg3
      have := ih (l - 1) (r + 1) L R (by omega) (by omega) (by omega)
        (by omega) (by omega) hacc' hexp
      obtain ⟨c1, c2, c3, c4, c5⟩ := this
      exact ⟨by omega, by omega, c3, c4, c5⟩
    · rw [if_neg hg] at hexp
      by_cases hlen : (m : Int) ≤ (r : Int) - l - 1
      · rw [if_pos hlen] at hexp
        have hinj := Option.some.inj hexp
        have hL : (l + 1).toNat = L := congrArg Prod.fst hinj
        have hR : r - 1 = R := congrArg Prod.snd hinj
        have hLi : (L : Int) = l + 1 := by omega
        have hRi : (R : Int) = (r : Int) - 1 := by omega
        refine ⟨by omega, by omega, by omega, by omega, ?_⟩
        intro x y hxy hLx hxlty
        exact hacc x y (by omega) (by omega) hxlty
      · rw [if_neg hlen] at hexp
        exact absurd hexp (by simp)

/-- Completeness of the expansion: from any pair inside a centered window
    whose pairs all satisfy the complement check and which cannot be widened
    further, the loop returns exactly that window once its length meets the
    threshold. -/
lemma expand_reaches (s : List Char) (m : Nat) (a b : Nat) :
    ∀ (fuel : Nat) (l : Int) (r : Nat),
      s.length + 1 ≤ fuel + r →
      (a : Int) - 1 ≤ l → l < (r : Int) → l + (r : Int) = (a : Int) + b →
      r ≤ b + 1 → b < s.length →
      (∀ x y : Nat, x + y = a + b → a ≤ x → (x : Int) ≤ l →
        comp (s.getD x '?') = s.getD y '?') →
      ¬(0 ≤ (a : Int) - 1 ∧ b + 1 < s.length ∧
        comp (cgetI s ((a : Int) - 1)) = cgetI s ((b + 1 : Nat))) →
      (m : Int) ≤ (b : Int) - a + 1 →
      expand s m fuel l r = some (a, b) := by
  intro fuel
  induction fuel with
  | zero =>
    intro l r hfuel _ _ _ hrb hb _ _ _
    exfalso
    omega
  | succ fuel ih =>
    intro l r hfuel hal hlr hsum hrb hb hvalid hmax hlen
    simp only [expand]
    by_cases hcase : (a : Int) ≤ l
    · have hg1 : (0 : Int) ≤ l := by omega
      have hg2 : r < s.length := by omega
      have hg3 : comp (cgetI s l) = cgetI s (r : Nat) := by
        have hx := hvalid l.toNat r (by omega) (by omega) (by omega)
        unfold cgetI
        rw [if_pos hg1, if_pos (by omega : (0 : Int) ≤ ((r : Nat) : Int))]
        have hrr : ((r : Nat) : Int).toNat = r := by omega
        rw [hrr]
        exact hx
      rw [if_pos ⟨hg1, hg2, hg3⟩]
      exact ih (l - 1) (r + 1) (by omega) (by omega) (by omega) (by omega)
        (by omega) hb (fun x y h1 h2 h3 => hvalid x y h1 h2 (by omega))
        hmax hlen
    · have hleq : l = (a : Int) - 1 := by omega
      have hreqN : r = b + 1 := by omega
      have hguard : ¬(0 ≤ l ∧ r < s.length ∧
          comp (cgetI s l) = cgetI s (r : Nat)) := by
        rw [hleq, hreqN]
        exact hmax
      rw [if_neg hguard]
      rw [if_pos (by omega : (m : Int) ≤ (r : Int) - l - 1)]
      have h1 : (l + 1).toNat = a := by omega
      have h2 : r - 1 = b := by omega
      rw [h1, h2]

/-- Membership in the palindrome finder's result is exactly a successful
    expansion around some adjacent center. -/
lemma pda_mem_iff (m : Nat) (seq : List Char) (x : Nat × Nat) :
    x ∈ PDA.findAllMatches m seq ↔
      ∃ i : Nat, i < (upper seq).length - 1 ∧
        expand (upper seq) m ((upper seq).length + 1) (i : Int) (i + 1) =
          some x := by
  unfold PDA.findAllMatches
  rw [(List.perm_insertionSort pairLe _).mem_iff, List.mem_dedup,
    List.mem_filterMap]
  constructor
  · rintro ⟨i, hi, he⟩
    exact ⟨i, List.mem_range.mp hi, he⟩
  · rintro ⟨i, hi, he⟩
    exact ⟨i, List.mem_range.mpr hi, he⟩

lemma pda_result_sorted (m : Nat) (seq : List Char) :
    List.Sorted pairLe (PDA.findAllMatches m seq) :=
  List.sorted_insertionSort pairLe _

lemma pda_result_nodup (m : Nat) (seq : List Char) :
    (PDA.findAllMatches m seq).Nodup := by
  unfold PDA.findAllMatches
  exact (List.perm_insertionSort pairLe _).symm.nodup (List.nodup_dedup _)

/-- C1 (amended): every window reported by the linear-chain engine has
    length exactly the pattern's and lies inside the sequence; when every
    character of the sequence uppercases into the DNA alphabet, the
    uppercased window additionally spells the uppercased pattern.  (On
    sequences containing out-of-alphabet characters the spelling clause can
    fail, see the counterexample.) -/
theorem dfa_reported_windows (p s : List Char) :
    (∀ m ∈ DFA.findAllMatches (mkDFA p) s,
        m.2 - m.1 + 1 = ((mkDFA p).length : Int) ∧ 0 ≤ m.1 ∧
        m.2 < (s.length : Int)) ∧
    ((∀ c ∈ s, c.toUpper ∈ dnaAlphabet) →
      ∀ m ∈ DFA.findAllMatches (mkDFA p) s,
        ∃ a : Nat, m = ((a : Int), (a : Int) + (mkDFA p).length - 1) ∧
          a + (mkDFA p).length ≤ s.length ∧
          ((upper s).drop a).take (mkDFA p).length = mkDFA p) := by
  constructor
  · intro m hm
    have := findAllMatchesAux_len (mkDFA p) s 0 0 (le_refl 0) m hm
    simpa using this
  · intro hs m hm
    by_cases hp : mkDFA p = []
    · rw [hp] at hm
      unfold DFA.findAllMatches at hm
      rw [findAllMatchesAux_nil_pattern] at hm
      simp at hm
    · have := findAllMatchesAux_sound (mkDFA p) hp s [] 0 hs
        (List.length_pos.mpr hp) (by simp) (by simp [upper]) m hm
      simpa using this

/-- Witness for C1 (amended) with pattern `"ATG"` and sequence `"CATG"`,
    whose single reported window is `(1, 3)`. -/
theorem dfa_reported_windows_witness :
    (∀ c ∈ (['C', 'A', 'T', 'G'] : List Char), c.toUpper ∈ dnaAlphabet) ∧
    ((1 : Int), (3 : Int)) ∈
      DFA.findAllMatches (mkDFA ['A', 'T', 'G']) ['C', 'A', 'T', 'G'] ∧
    (∃ a : Nat,
      ((1 : Int), (3 : Int)) =
        ((a : Int), (a : Int) + (mkDFA ['A', 'T', 'G']).length - 1) ∧
      a + (mkDFA ['A', 'T', 'G']).length ≤
        (['C', 'A', 'T', 'G'] : List Char).length ∧
      ((upper ['C', 'A', 'T', 'G']).drop a).take
        (mkDFA ['A', 'T', 'G']).length = mkDFA ['A', 'T', 'G']) :=
  ⟨by decide, by decide,
    (dfa_reported_windows ['A', 'T', 'G'] ['C', 'A', 'T', 'G']).2
      (by decide) (1, 3) (by decide)⟩

/-- C5: on sequences whose characters all uppercase into the DNA alphabet,
    the linear-chain invariant holds — after consuming any prefix, the
    current state `i` means the last `i` uppercased symbols equal the first
    `i` pattern characters — and consequently every window reported by
    `find_all_matches` spells exactly the stored pattern. -/
theorem dfa_state_invariant (p s : List Char) (hp : p ≠ [])
    (hs : ∀ c ∈ s, c.toUpper ∈ dnaAlphabet) :
    (∀ pre post : List Char, s = pre ++ post →
        DFA.run (mkDFA p) 0 pre < (mkDFA p).length ∧
        (mkDFA p).take (DFA.run (mkDFA p) 0 pre) =
          (upper pre).drop (pre.length - DFA.run (mkDFA p) 0 pre)) ∧
    (∀ m ∈ DFA.findAllMatches (mkDFA p) s,
        ∃ a : Nat, m = ((a : Int), (a : Int) + (mkDFA p).length - 1) ∧
          a + (mkDFA p).length ≤ s.length ∧
          ((upper s).drop a).take (mkDFA p).length = mkDFA p) := by
  have hP : mkDFA p ≠ [] := fun h => hp (List.map_eq_nil_iff.mp h)
  constructor
  · intro pre post hsplit
    have hpre : ∀ c ∈ pre, c.toUpper ∈ dnaAlphabet := fun c hcm =>
      hs c (by rw [hsplit]; exact List.mem_append_left post hcm)
    have := dfa_run_inv (mkDFA p) hP pre 0 [] hpre
      (List.length_pos.mpr hP) (by simp) (by simp [upper])
    obtain ⟨ha, -, hcc⟩ := this
    exact ⟨by simpa using ha, by simpa using hcc⟩
  · intro m hm
    have := findAllMatchesAux_sound (mkDFA p) hP s [] 0 hs
      (List.length_pos.mpr hP) (by simp) (by simp [upper]) m hm
    simpa using this

/-- Witness for C5 with pattern `"ATG"` and sequence `"CATG"`: the invariant
    after the prefix `"CA"` (state `1`) and the spelled window `(1, 3)`. -/
theorem dfa_state_invariant_witness :
    (['A', 'T', 'G'] : List Char) ≠ [] ∧
    (∀ c ∈ (['C', 'A', 'T', 'G'] : List Char), c.toUpper ∈ dnaAlphabet) ∧
    (DFA.run (mkDFA ['A', 'T', 'G']) 0 ['C', 'A'] <
        (mkDFA ['A', 'T', 'G']).length ∧
      (mkDFA ['A', 'T', 'G']).take (DFA.run (mkDFA ['A', 'T', 'G']) 0 ['C', 'A']) =
        (upper ['C', 'A']).drop
          ((['C', 'A'] : List Char).length -
            DFA.run (mkDFA ['A', 'T', 'G']) 0 ['C', 'A'])) :=
  ⟨by decide, by decide,
    (dfa_state_invariant ['A', 'T', 'G'] ['C', 'A', 'T', 'G']
        (by decide) (by decide)).1 ['C', 'A'] ['T', 'G'] rfl⟩

/-- What membership in the palindrome finder's result guarantees with no
    assumption on the scanned characters: ordered bounds, the length
    threshold, an in-range end, an odd index sum (even window length), and
    the complement check on every centered pair taken left against right. -/
lemma pda_mem_spec (m : Nat) (seq : List Char) (wa wb : Nat)
    (hm2 : 2 ≤ m)
    (hw : (wa, wb) ∈ PDA.findAllMatches m seq) :
    wa ≤ wb ∧ m ≤ wb - wa + 1 ∧ wb < seq.length ∧ (wa + wb) % 2 = 1 ∧
    (∀ x y : Nat, x + y = wa + wb → wa ≤ x → x < y →
      comp ((upper seq).getD x '?') = (upper seq).getD y '?') := by
  obtain ⟨i, hi, he⟩ := (pda_mem_iff _ _ _).mp hw
  have hn1 : (upper seq).length = seq.length := upper_length seq
  have hvac : ∀ x y : Nat, (x : Int) + y = (i : Int) + (i + 1 : Nat) →
      (i : Int) < (x : Int) → x < y →
      comp ((upper seq).getD x '?') = (upper seq).getD y '?' := by
    intro x y h1 h2 h3
    exfalso
    omega
  obtain ⟨hsum, hLle, hRlt, hlen, hpairs⟩ :=
    expand_spec (upper seq) m ((upper seq).length + 1)
      i (i + 1) wa wb (by omega) (by omega) (by omega) (by omega)
      (by omega) hvac he
  exact ⟨by omega, by omega, by omega, by omega, hpairs⟩

/-- C3 (amended): the palindrome finder's result list is duplicate-free and
    sorted by `(start, end)`; every reported window — on any sequence —
    has ordered bounds, length at least the configured minimum, and ends
    inside the sequence; and when every character of the sequence uppercases
    into the DNA alphabet, the complement condition additionally holds at
    every offset.  (On sequences with out-of-alphabet characters the
    complement condition can fail at right-half offsets, see the
    counterexample.) -/
theorem pda_reported_windows (mIn : Int) (seq : List Char) :
    (List.Sorted pairLe (PDA.findAllMatches (mkMinLen mIn) seq) ∧
      (PDA.findAllMatches (mkMinLen mIn) seq).Nodup) ∧
    (∀ w ∈ PDA.findAllMatches (mkMinLen mIn) seq,
        w.1 ≤ w.2 ∧ mkMinLen mIn ≤ w.2 - w.1 + 1 ∧ w.2 < seq.length) ∧
    ((∀ c ∈ seq, c.toUpper ∈ dnaAlphabet) →
      ∀ w ∈ PDA.findAllMatches (mkMinLen mIn) seq,
        ∀ t : Nat, t ≤ w.2 - w.1 →
          comp ((upper seq).getD (w.1 + t) '?') =
            (upper seq).getD (w.2 - t) '?') := by
  refine ⟨⟨pda_result_sorted _ _, pda_result_nodup _ _⟩, ?_, ?_⟩
  · intro w hw
    obtain ⟨wa, wb⟩ := w
    obtain ⟨h1, h2, h3, -, -⟩ :=
      pda_mem_spec (mkMinLen mIn) seq wa wb (mkMinLen_two mIn) hw
    exact ⟨h1, h2, h3⟩
  · intro hs w hw t ht
    obtain ⟨wa, wb⟩ := w
    obtain ⟨hab, -, hblt, hodd, hpairs⟩ :=
      pda_mem_spec (mkMinLen mIn) seq wa wb (mkMinLen_two mIn) hw
    have hsup : ∀ d ∈ upper seq, d ∈ dnaAlphabet := by
      intro d hd
      obtain ⟨c, hc, rfl⟩ := List.mem_map.mp hd
      exact hs c hc
    have hn1 : (upper seq).length = seq.length := upper_length seq
    rcases Nat.lt_trichotomy (wa + t) (wb - t) with hlt | heq | hgt
    · exact hpairs (wa + t) (wb - t) (by omega) (by omega) hlt
    · exfalso
      omega
    · have hmir := hpairs (wb - t) (wa + t) (by omega) (by omega) hgt
      have hy_mem : (upper seq).getD (wb - t) '?' ∈ dnaAlphabet :=
        hsup _ (getD_mem _ (wb - t) '?' (by omega))
      rw [← hmir]
      exact comp_mem_invol _ hy_mem

/-- Witness for C3 (amended) at the spec's scenario 3: minimum length 4 and
    sequence `"GATC"`, whose single reported window is `(0, 3)`; the
    unconditional bounds clause and the complement condition at offset 1
    are both instantiated there. -/
theorem pda_reported_windows_witness :
    (∀ c ∈ (['G', 'A', 'T', 'C'] : List Char), c.toUpper ∈ dnaAlphabet) ∧
    (0, 3) ∈ PDA.findAllMatches (mkMinLen 4) ['G', 'A', 'T', 'C'] ∧
    ((0 : Nat) ≤ 3 ∧ mkMinLen 4 ≤ 3 - 0 + 1 ∧
      (3 : Nat) < (['G', 'A', 'T', 'C'] : List Char).length) ∧
    comp ((upper ['G', 'A', 'T', 'C']).getD (0 + 1) '?') =
      (upper ['G', 'A', 'T', 'C']).getD (3 - 1) '?' :=
  ⟨by decide, by decide,
    (pda_reported_windows 4 ['G', 'A', 'T', 'C']).2.1 (0, 3) (by decide),
    (pda_reported_windows 4 ['G', 'A', 'T', 'C']).2.2 (by decide) (0, 3)
      (by decide) 1 (by decide)⟩

/-- C4 (amended): every window of the uppercased sequence that has even
    length (centered between two adjacent positions), meets the minimum
    length, satisfies the complement condition at every offset, and is
    maximal — it touches a sequence boundary or the surrounding pair fails
    the complement check — is reported by the palindrome finder.
    (Non-maximal valid windows, and odd-length ones, are omitted, see the
    counterexample.) -/
theorem pda_maximal_window_complete (mIn : Int) (seq : List Char) (a b : Nat)
    (hb : b < seq.length)
    (hlen : mkMinLen mIn ≤ b + 1 - a)
    (heven : (a + b) % 2 = 1)
    (hpal : ∀ t : Nat, t ≤ b - a →
      comp ((upper seq).getD (a + t) '?') = (upper seq).getD (b - t) '?')
    (hmax : a = 0 ∨ b + 1 = seq.length ∨
      comp ((upper seq).getD (a - 1) '?') ≠ (upper seq).getD (b + 1) '?') :
    (a, b) ∈ PDA.findAllMatches (mkMinLen mIn) seq := by
  have hn1 : (upper seq).length = seq.length := upper_length seq
  have hm2 : 2 ≤ mkMinLen mIn := mkMinLen_two mIn
  have hab : a + 1 ≤ b := by omega
  have hcenter : a ≤ (a + b - 1) / 2 ∧ (a + b - 1) / 2 + 1 ≤ b ∧
      a + b = 2 * ((a + b - 1) / 2) + 1 := by omega
  obtain ⟨hci, hci2, hcsum⟩ := hcenter
  have hmax' : ¬(0 ≤ (a : Int) - 1 ∧ b + 1 < (upper seq).length ∧
      comp (cgetI (upper seq) ((a : Int) - 1)) =
        cgetI (upper seq) ((b + 1 : Nat))) := by
    rintro ⟨hx1, hx2, hx3⟩
    rcases hmax with h0 | hn | hne
    · omega
    · omega
    · apply hne
      have hg1 : cgetI (upper seq) ((a : Int) - 1) =
          (upper seq).getD (a - 1) '?' := by
        unfold cgetI
        rw [if_pos hx1]
        congr 1
        omega
      have hg2 : cgetI (upper seq) ((b + 1 : Nat)) =
          (upper seq).getD (b + 1) '?' := by
        unfold cgetI
        rw [if_pos (by omega : (0 : Int) ≤ (((b + 1 : Nat)) : Int))]
        simp
      rw [← hg1, ← hg2]
      exact hx3
  have hvalid : ∀ x y : Nat, x + y = a + b → a ≤ x →
      (x : Int) ≤ ((a + b - 1) / 2 : Nat) →
      comp ((upper seq).getD x '?') = (upper seq).getD y '?' := by
    intro x y h1 h2 h3
    have := hpal (x - a) (by omega)
    have hxx : a + (x - a) = x := by omega
    have hyy : b - (x - a) = y := by omega
    rw [hxx, hyy] at this
    exact this
  have he := expand_reaches (upper seq) (mkMinLen mIn) a b
    ((upper seq).length + 1) ((a + b - 1) / 2 : Nat) ((a + b - 1) / 2 + 1)
    (by omega) (by omega) (by omega) (by omega) (by omega) (by omega)
    hvalid hmax' (by omega)
  exact (pda_mem_iff _ _ _).mpr ⟨(a + b - 1) / 2, by omega, he⟩

/-- Witness for C4 (amended) at minimum length 4 and sequence `"GATC"`: the
    maximal even window `(0, 3)` satisfies all the hypotheses and is
    reported. -/
theorem pda_maximal_window_complete_witness :
    (3 : Nat) < (['G', 'A', 'T', 'C'] : List Char).length ∧
    mkMinLen 4 ≤ 3 + 1 - 0 ∧ (0 + 3) % 2 = 1 ∧
    (∀ t : Nat, t ≤ 3 - 0 →
      comp ((upper ['G', 'A', 'T', 'C']).getD (0 + t) '?') =
        (upper ['G', 'A', 'T', 'C']).getD (3 - t) '?') ∧
    (0, 3) ∈ PDA.findAllMatches (mkMinLen 4) ['G', 'A', 'T', 'C'] :=
  ⟨by decide, by decide, by decide, by decide,
    pda_maximal_window_complete 4 ['G', 'A', 'T', 'C'] 0 3 (by decide)
      (by decide) (by decide) (by decide) (Or.inl rfl)⟩

end GenomeAutomaton
